import Mathlib

/-!
Verification of the defined-word linking engine of `defined_words.py`
(cpprefjp/markdown_to_html).

The Python module is shallowly embedded: text runs become `List Char`,
the compiled alternation becomes a list of per-term sub-patterns with
explicit boundary flags, `regex.finditer` becomes a left-to-right scan
with leftmost / first-alternative semantics, the term dictionary becomes
an association list, Python exceptions become an `Except` error type, and
`xml.etree` elements become a mutually inductive element/forest type
carrying `text` and `tail` slots exactly as etree stores them.
-/

namespace DefinedWords

/-- The character class of `_RE_WBEG` / `_RE_WEND` in the source: the set
of characters that are a lowercase letter (category Ll), an uppercase
letter (category Lu), an underscore, or an ASCII digit.  Category
membership is evaluated here on the character repertoire actually
occurring in this development (ASCII plus Japanese CJK ideographs and
kana): on ASCII, Ll is a-z and Lu is A-Z; CJK ideographs and kana have
category Lo and so are not in the class.  The source comment calls these
English word boundaries. -/
def isWordChar (c : Char) : Bool :=
  (decide ('a' ≤ c) && decide (c ≤ 'z')) ||
  (decide ('A' ≤ c) && decide (c ≤ 'Z')) ||
  (c == '_') ||
  (decide ('0' ≤ c) && decide (c ≤ '9'))

/-- Follows the spec's words, for comparison with `isWordChar`:
"where word character means letter, underscore, or digit".  A letter in
the Unicode sense includes the Lo category, so CJK ideographs and the
kana are letters; the predicate is evaluated on the development's
character repertoire (ASCII, hiragana and katakana 0x3040-0x30FF, and
the CJK unified ideographs 0x4E00-0x9FFF). -/
def specWordChar (c : Char) : Bool :=
  isWordChar c ||
  (decide (0x3040 ≤ c.toNat) && decide (c.toNat ≤ 0x30FF)) ||
  (decide (0x4E00 ≤ c.toNat) && decide (c.toNat ≤ 0x9FFF))

/-- Python string comparison `a < b`: lexicographic by code point, with a
proper prefix comparing less than its extension.  Used to embed
`sorted(keys, reverse=True)`. -/
def ltStr : List Char → List Char → Bool
  | [], [] => false
  | [], _ :: _ => true
  | _ :: _, [] => false
  | a :: as, b :: bs =>
    if a.toNat < b.toNat then true
    else if b.toNat < a.toNat then false
    else ltStr as bs

/-- The (non-strict, descending) order underlying `sorted(keys, reverse=True)`:
`strGe a b` holds when `a` may precede `b` in the reverse-sorted list. -/
def strGe (a b : List Char) : Prop := ltStr a b = false

instance : DecidableRel strGe := fun a b => inferInstanceAs (Decidable (ltStr a b = false))

/-- `sorted(keys, reverse=True)` of the source, on the code-point lists of
the keys: descending lexicographic order.  The keys of a Python dict are
distinct, so any sort into this order yields the same list as Python's. -/
def sortDescLex (l : List (List Char)) : List (List Char) :=
  l.insertionSort strGe

/-- One alternative of the compiled pattern `re_defined_words`: the
escaped literal term (a literal once escaped, so kept as the raw
character list) together with the two optional boundary lookarounds that
`_quoteWordForRegex` attaches. -/
structure CompiledTerm where
  word : List Char
  wbeg : Bool
  wend : Bool
deriving DecidableEq, Repr

/-- `_quoteWordForRegex`: escape the word (a no-op in this embedding,
where patterns are literal character lists) and attach a left boundary
lookbehind when the first character is a word character and a right
boundary lookahead when the last character is one. -/
def quoteWordForRegex (w : List Char) : CompiledTerm :=
  { word := w
    wbeg := (w.head?.map isWordChar).getD false
    wend := (w.getLast?.map isWordChar).getD false }

/-- The compiled alternation
`re.compile(r'|'.join([_quoteWordForRegex(key) for key in sorted(keys, reverse=True)]))`:
the per-term sub-patterns in descending lexicographic key order. -/
def compilePattern (keys : List String) : List CompiledTerm :=
  (sortDescLex (keys.map String.data)).map quoteWordForRegex

/-- Whether one alternative matches at position `i` of `text`: the
literal word occurs at `i`, the lookbehind `(?<=^|[^...])` holds when
present, and the lookahead `(?=$|[^...])` holds when present.  (`^` and
`$` of the MULTILINE pattern additionally match around a newline, but a
newline is itself a non-word character, so the lookarounds are
unaffected.) -/
def matchTermAt (text : List Char) (i : Nat) (ct : CompiledTerm) : Bool :=
  ((text.drop i).take ct.word.length == ct.word) &&
  (!ct.wbeg || (i == 0) || !(isWordChar (text.getD (i - 1) ' '))) &&
  (!ct.wend || decide (text.length ≤ i + ct.word.length) ||
    !(isWordChar (text.getD (i + ct.word.length) ' ')))

/-- The regex engine's search for the next match at or after position
`i`: at each position the alternatives are tried in pattern order and the
first that matches wins (Python alternation is leftmost, not
longest-of-alternation).  `fuel` bounds the remaining positions;
`findMatchFrom pat text (text.length + 1 - i) i` examines every position
from `i` to `text.length`. -/
def findMatchFrom (pat : List CompiledTerm) (text : List Char) :
    Nat → Nat → Option (Nat × List Char)
  | 0, _ => none
  | fuel + 1, i =>
    if text.length < i then none
    else
      match pat.find? (fun ct => matchTermAt text i ct) with
      | some ct => some (i, ct.word)
      | none => findMatchFrom pat text fuel (i + 1)

/-- `finditer`: all non-overlapping matches, scanning left to right and
continuing after each match's end (advancing at least one position, as
the engine does after a zero-width match). -/
def scanFrom (pat : List CompiledTerm) (text : List Char) :
    Nat → Nat → List (Nat × List Char)
  | 0, _ => []
  | fuel + 1, i =>
    match findMatchFrom pat text (text.length + 1 - i) i with
    | none => []
    | some (j, w) => (j, w) :: scanFrom pat text fuel (j + max w.length 1)

/-- All matches of the compiled pattern in `text`, as
(start position, matched word) pairs, in scanning order. -/
def scanText (pat : List CompiledTerm) (text : List Char) : List (Nat × List Char) :=
  scanFrom pat text (text.length + 1) 0

/-- One dictionary entry, with the optional `link`, `desc` and `redirect`
keys of DEFINED_WORDS.json and the `resolved_link` key added by
`_resolveDictionary`.  An absent key is `none`. -/
structure Entry where
  link : Option String
  desc : Option String
  redirect : Option String
  resolved_link : Option String
deriving DecidableEq

/-- `self._dict`: a Python dict, embedded as an association list in
insertion order (Python dict keys are distinct and iterate in insertion
order). -/
abbrev Dict := List (String × Entry)

/-- `self._dict[word]` as an optional lookup (`none` where Python raises
KeyError or `in` answers False). -/
def alookup (d : Dict) (k : String) : Option Entry :=
  (d.find? (fun p => p.1 == k)).map Prod.snd

/-- In-place mutation `self._dict[word][key] = value`, as a functional
update of the association list. -/
def updateEntry (d : Dict) (k : String) (f : Entry → Entry) : Dict :=
  d.map (fun p => if p.1 == k then (p.1, f p.2) else p)

/-- The distinguishable failure conditions the module raises. -/
inductive DWError where
  /-- `"defined_words: redirection loop for '%s'" % word` -/
  | redirectLoop (word : String)
  /-- Python KeyError from `self._dict[word]` on a missing key -/
  | keyError (word : String)
  /-- `"Too many defined words: ..."` when the dictionary exceeds 500 -/
  | tooManyWords (count : Nat)
  /-- `"defined_words: link='%s': relative link is unallowed"` -/
  | relativeLink (link : String)
  /-- Python ValueError from `str.index` / `str.rindex` on a miss -/
  | valueError
deriving DecidableEq

/-- One annotation element built by `_convertText`: an `a` element with
class `cpprefjp-defined-word`, optional `href` (the resolved link),
optional `data-desc` (the description), the matched word as its text,
and the tail string later attached by the `prev.tail` assignments. -/
structure Ann where
  href : Option String
  desc : Option String
  word : List Char
  tail : List Char
deriving DecidableEq

/-- Python slice `text[a:b]`. -/
def sliceList (text : List Char) (a b : Nat) : List Char :=
  (text.take b).drop a

/-- The match loop of `_convertText` over the `finditer` results, from
scan cursor `pos`.  The first component is the string attached to
whichever slot currently terminates the run (`new_text` for the first
slice, the previous annotation's `tail` afterwards); a match whose word
is not a dictionary key is skipped with `continue`, leaving `pos`
unchanged so its characters stay in the next slice. -/
def convertTextLoop (d : Dict) (text : List Char) :
    List (Nat × List Char) → Nat → List Char × List Ann
  | [], pos => (text.drop pos, [])
  | (j, w) :: rest, pos =>
    match alookup d (String.mk w) with
    | none => convertTextLoop d text rest pos
    | some e =>
      let r := convertTextLoop d text rest (j + w.length)
      (sliceList text pos j,
       { href := e.resolved_link, desc := e.desc, word := w, tail := r.1 } :: r.2)

/-- `_convertText`: returns the new `text` for the owning slot and the
list of annotation elements to insert (each carrying its tail). -/
def convertText (d : Dict) (pat : List CompiledTerm) (text : List Char) :
    List Char × List Ann :=
  convertTextLoop d text (scanText pat text) 0

/-- The `while 'redirect' in self._dict[word]` loop of
`_resolveWordProperty`, entered after the property was found absent on
the original entry.  Each iteration checks the loop condition
(`redirect` present on the current word's entry), raises on a revisit,
records the word as visited, steps to the redirect target, and returns
`(value, target)` as soon as the target's entry has the property.
Terminates because every iteration adds a fresh dictionary key to
`visited`. -/
def rwpLoop (d : Dict) (prop : Entry → Option String) (visited : List String)
    (word : String) : Except DWError (Option String × Option String) :=
  match halookup : alookup d word with
  | none => .error (.keyError word)
  | some e =>
    match e.redirect with
    | none => .ok (none, none)
    | some next =>
      if hmem : word ∈ visited then .error (.redirectLoop word)
      else
        match alookup d next with
        | none => .error (.keyError next)
        | some e2 =>
          match prop e2 with
          | some v => .ok (some v, some next)
          | none => rwpLoop d prop (word :: visited) next
termination_by ((d.map Prod.fst).filter (fun k => decide (k ∉ visited))).length
decreasing_by
  have hmemk : word ∈ d.map Prod.fst := by
    unfold alookup at halookup
    cases hf : d.find? (fun p => p.1 == word) with
    | none => rw [hf] at halookup; cases halookup
    | some pr =>
      have hmem2 := List.mem_of_find?_eq_some hf
      have hkey := List.find?_some hf
      have hk : pr.1 = word := by simpa using hkey
      rw [← hk]
      exact List.mem_map_of_mem Prod.fst hmem2
  have key : ∀ (l vis : List String) (w : String), w ∈ l → w ∉ vis →
      (l.filter (fun k => decide (k ∉ w :: vis))).length <
        (l.filter (fun k => decide (k ∉ vis))).length := by
    intro l vis w hw hv
    induction l with
    | nil => cases hw
    | cons x l ih =>
      have hmono : List.Sublist (l.filter (fun k => decide (k ∉ w :: vis)))
          (l.filter (fun k => decide (k ∉ vis))) := by
        apply List.monotone_filter_right
        intro a ha
        simp only [decide_eq_true_eq] at ha ⊢
        intro hmem3
        exact ha (List.mem_cons_of_mem _ hmem3)
      rcases eq_or_ne x w with rfl | hxw
      · have h1 : (decide (x ∉ x :: vis)) = false := by simp
        have h2 : (decide (x ∉ vis)) = true := by simpa using hv
        simp only [List.filter_cons, h1, h2, if_true, if_false, Bool.false_eq_true,
          List.length_cons]
        exact Nat.lt_succ_of_le hmono.length_le
      · have heq2 : (decide (x ∉ w :: vis)) = (decide (x ∉ vis)) := by
          by_cases hx : x ∈ vis <;> simp [hx, hxw]
        have hw2 : w ∈ l := by
          cases hw with
          | head => exact absurd rfl hxw
          | tail _ h => exact h
        simp only [List.filter_cons, heq2]
        by_cases hx : (decide (x ∉ vis)) = true
        · simp only [hx, if_true, List.length_cons]
          exact Nat.succ_lt_succ (ih hw2)
        · simp only [Bool.not_eq_true] at hx
          simp only [hx, Bool.false_eq_true, if_false]
          exact ih hw2
  exact key (d.map Prod.fst) visited word hmemk hmem

/-- `_resolveWordProperty(word, prop)`: the property straight off the
word's own entry when present, else the redirect-following loop. -/
def resolveWordProperty (d : Dict) (prop : Entry → Option String) (word : String) :
    Except DWError (Option String × Option String) :=
  match alookup d word with
  | none => .error (.keyError word)
  | some e =>
    match prop e with
    | some v => .ok (some v, none)
    | none => rwpLoop d prop [] word

/-- `[a-zA-Z0-9]`, the scheme characters of `_RE_LINK_SCHEME`. -/
def isSchemeChar (c : Char) : Bool :=
  (decide ('a' ≤ c) && decide (c ≤ 'z')) ||
  (decide ('A' ≤ c) && decide (c ≤ 'Z')) ||
  (decide ('0' ≤ c) && decide (c ≤ '9'))

/-- After at least one scheme character: more scheme characters then `:`. -/
def schemeTail : List Char → Bool
  | [] => false
  | c :: rest => if c = ':' then true else if isSchemeChar c then schemeTail rest else false

/-- `_RE_LINK_SCHEME.search(link) is not None` for the anchored pattern
`^[a-zA-Z0-9]+:`. -/
def hasLinkScheme : List Char → Bool
  | [] => false
  | c :: rest => isSchemeChar c && schemeTail rest

/-- The backtracking search of `_RE_LINK_EXTENSION`
(`^([^?#]+?)(?:\.md)([?#]|$)`): the lazy group grows one character at a
time from the start of the string; after each growth step the engine
checks for a literal `.md` followed by `?`, `#` or the end.  `acc` is
the group so far; the result substitutes `\1<ext>\2`. -/
def linkExtAux (ext : List Char) (acc : List Char) : List Char → Option (List Char)
  | [] => none
  | c :: rest =>
    if c = '?' ∨ c = '#' then none
    else
      match rest with
      | '.' :: 'm' :: 'd' :: rest2 =>
        if rest2 = [] ∨ rest2.head? = some '?' ∨ rest2.head? = some '#' then
          some ((acc ++ [c]) ++ ext ++ rest2)
        else linkExtAux ext (acc ++ [c]) rest
      | _ => linkExtAux ext (acc ++ [c]) rest

/-- `_RE_LINK_EXTENSION.sub(r'\1%s\2' % extension, link, count=1)`:
replace the trailing `.md` of the path part (before any `?`/`#`) by the
configured extension; no match leaves the link unchanged. -/
def rewriteLinkExtension (ext : String) (s : String) : String :=
  match linkExtAux ext.data [] s.data with
  | none => s
  | some r => String.mk r

/-- The link-normalization body of `_resolveDictionary`'s second loop: a
link with a scheme is kept as is; otherwise the `.md` suffix is
rewritten, a link not starting with `/` is a fatal error, and the base
URL is prefixed. -/
def resolveLink (base_url extension : String) (link : String) : Except DWError String :=
  if hasLinkScheme link.data then .ok link
  else
    let l := rewriteLinkExtension extension link
    if l.data.head? = some '/' then .ok (base_url ++ l)
    else .error (.relativeLink l)

/-- `"%s。%s" % (redirect, value)`. -/
def formatDesc (redirectWord value : String) : String :=
  redirectWord ++ "。" ++ value

/-- One iteration of `_resolveDictionary`'s first loop for `word`:
inherit a missing `link` and then a missing `desc` through redirects,
the description prefixed with the hop it was found at.  `vr.2.getD
"None"` mirrors Python's `"%s" % None` rendering for the (unreachable
in practice) case of a found value with no hop. -/
def pass1Step (d : Dict) (word : String) : Except DWError Dict :=
  match alookup d word with
  | none => .ok d
  | some e => do
    let d1 ←
      match e.link with
      | some _ => pure d
      | none => do
        let vr ← resolveWordProperty d Entry.link word
        match vr.1 with
        | some value => pure (updateEntry d word (fun e2 => { e2 with link := some value }))
        | none => pure d
    match e.desc with
    | some _ => pure d1
    | none => do
      let vr ← resolveWordProperty d1 Entry.desc word
      match vr.1 with
      | some value =>
        pure (updateEntry d1 word (fun e2 =>
          { e2 with desc := some (formatDesc (vr.2.getD "None") value) }))
      | none => pure d1

/-- One iteration of `_resolveDictionary`'s second loop for `word`:
normalize the entry's link (when present) into `resolved_link`. -/
def pass2Step (base_url extension : String) (d : Dict) (word : String) :
    Except DWError Dict :=
  match alookup d word with
  | none => .ok d
  | some e =>
    match e.link with
    | none => .ok d
    | some link => do
      let rl ← resolveLink base_url extension link
      pure (updateEntry d word (fun e2 => { e2 with resolved_link := some rl }))

/-- `for word in self._dict.keys(): ...` with the dictionary threaded
through the per-word mutations (the key set never changes). -/
def foldSteps (f : Dict → String → Except DWError Dict) :
    Dict → List String → Except DWError Dict
  | d, [] => .ok d
  | d, w :: ws => do foldSteps f (← f d w) ws

/-- `_resolveDictionary`: the inherit-link/desc loop over all keys, then
the link-normalization loop over all keys. -/
def resolveDictionary (base_url extension : String) (d : Dict) : Except DWError Dict := do
  let keys := d.map Prod.fst
  let d1 ← foldSteps pass1Step d keys
  foldSteps (pass2Step base_url extension) d1 keys

mutual
/-- An `xml.etree.ElementTree` element: tag, attributes in insertion
order, the `text` slot (string before the first child), the `tail` slot
(string after this element's closing tag, owned by the parent's run),
and the child elements. -/
inductive XElem : Type where
  | mk (tag : String) (attrs : List (String × String)) (text : Option String)
      (tail : Option String) (children : XForest) : XElem

/-- The ordered children of an element. -/
inductive XForest : Type where
  | nil : XForest
  | cons (head : XElem) (rest : XForest) : XForest
end

def XElem.tag : XElem → String
  | .mk t _ _ _ _ => t

def XElem.attrs : XElem → List (String × String)
  | .mk _ a _ _ _ => a

def XElem.text : XElem → Option String
  | .mk _ _ tx _ _ => tx

def XElem.tail : XElem → Option String
  | .mk _ _ _ tl _ => tl

def XElem.children : XElem → XForest
  | .mk _ _ _ _ c => c

/-- `e.tail = value`. -/
def XElem.setTail : XElem → Option String → XElem
  | .mk t a tx _ c, tl => .mk t a tx tl c

def XForest.ofList : List XElem → XForest
  | [] => .nil
  | e :: es => .cons e (ofList es)

def XForest.toList : XForest → List XElem
  | .nil => []
  | .cons e es => e :: toList es

/-- ASCII lowercasing, the effect of `re.IGNORECASE` on the all-ASCII
alternatives of `_RE_EXCLUDED_TAGS`. -/
def toLowerAscii (s : String) : String :=
  String.mk (s.data.map (fun c =>
    if 'A' ≤ c ∧ c ≤ 'Z' then Char.ofNat (c.toNat + 32) else c))

/-- `_RE_EXCLUDED_TAGS.match(elem.tag)`: the anchored, case-insensitive
alternation `^(?:a|code|pre|kbd|dfn|h1)$`. -/
def excludedTag (tag : String) : Bool :=
  ["a", "code", "pre", "kbd", "dfn", "h1"].contains (toLowerAscii tag)

/-- `_convertText` applied to an optional slot: a `None` slot is left
alone and contributes no insertions. -/
def convertOptText (d : Dict) (pat : List CompiledTerm) :
    Option String → Option String × List Ann
  | none => (none, [])
  | some s =>
    let r := convertText d pat s.data
    (some (String.mk r.1), r.2)

/-- The `etree.Element('a', attrs)` built in `_convertText` for one
annotation, with its text and tail. -/
def annToElem (a : Ann) : XElem :=
  .mk "a"
    (("class", "cpprefjp-defined-word") ::
      ((match a.href with | some h => [("href", h)] | none => []) ++
       (match a.desc with | some ds => [("data-desc", ds)] | none => [])))
    (some (String.mk a.word)) (some (String.mk a.tail)) .nil

/-- Python `list.insert(i, x)` (clamping at the end). -/
def listInsert (l : List XElem) (i : Nat) (x : XElem) : List XElem :=
  l.take i ++ x :: l.drop i

/-- The insertion pass of `_recurseElement`:
`for i, ins in reversed(list(enumerate(insertions))): for e in reversed(ins): elem.insert(i, e)`.
Slot 0 is the conversion of `elem.text`; slot `k` the conversion of the
`k`-th child's tail. -/
def insertSlots (children : List XElem) (slots : List (List Ann)) : List XElem :=
  (slots.enum.reverse).foldl
    (fun acc p => (p.2.reverse).foldl (fun acc2 a => listInsert acc2 p.1 (annToElem a)) acc)
    children

mutual
/-- `_recurseElement`: skip excluded subtrees wholesale; otherwise
convert the element's `text`, recurse into each child and convert the
child's `tail`, then insert every produced annotation at its slot. -/
def recurseElement (d : Dict) (pat : List CompiledTerm) : XElem → XElem
  | .mk tag attrs text tail children =>
    if excludedTag tag then .mk tag attrs text tail children
    else
      let tc := convertOptText d pat text
      let pcs := recurseChildren d pat children
      .mk tag attrs tc.1 tail
        (XForest.ofList (insertSlots (pcs.map Prod.fst) (tc.2 :: pcs.map Prod.snd)))

/-- The child loop of `_recurseElement`: recurse into the child, then
convert its tail; returns each processed child with the annotations cut
from its tail. -/
def recurseChildren (d : Dict) (pat : List CompiledTerm) : XForest → List (XElem × List Ann)
  | .nil => []
  | .cons c cs =>
    let c2 := recurseElement d pat c
    let tc := convertOptText d pat c2.tail
    (c2.setTail tc.1, tc.2) :: recurseChildren d pat cs
end

/-- `xml.sax.saxutils`-style escaping of character data by
`ElementTree._escape_cdata`. -/
def escapeCData (s : List Char) : List Char :=
  s.flatMap (fun c =>
    if c = '&' then "&amp;".data
    else if c = '<' then "&lt;".data
    else if c = '>' then "&gt;".data
    else [c])

/-- `ElementTree._escape_attrib`. -/
def escapeAttrib (s : List Char) : List Char :=
  s.flatMap (fun c =>
    if c = '&' then "&amp;".data
    else if c = '<' then "&lt;".data
    else if c = '>' then "&gt;".data
    else if c = '"' then "&quot;".data
    else if c = '\r' then "&#13;".data
    else if c = '\n' then "&#10;".data
    else if c = '\t' then "&#09;".data
    else [c])

def serializeAttrs (attrs : List (String × String)) : List Char :=
  attrs.flatMap (fun kv =>
    ' ' :: (kv.1.data ++ '=' :: '"' :: (escapeAttrib kv.2.data ++ ['"'])))

/-- Python truthiness of an optional string slot (`None` and `""` are
falsy). -/
def truthy : Option String → Bool
  | none => false
  | some s => !s.isEmpty

def XForest.isNil : XForest → Bool
  | .nil => true
  | .cons _ _ => false

mutual
/-- `etree.tostring(elem, encoding="unicode", method="xml")` as
`ElementTree._serialize_xml` produces it: attributes in order, a
self-closing ` />` form when the element has neither (truthy) text nor
children, and the element's tail appended after its closing tag. -/
def serializeElem : XElem → List Char
  | .mk tag attrs text tail children =>
    ('<' :: tag.data ++ serializeAttrs attrs) ++
    (if truthy text || !(XForest.isNil children) then
      '>' :: (match text with
              | some s => if s.isEmpty then [] else escapeCData s.data
              | none => []) ++
        serializeForest children ++ ('<' :: '/' :: tag.data ++ ['>'])
    else " />".data) ++
    (match tail with
     | some s => if s.isEmpty then [] else escapeCData s.data
     | none => [])

def serializeForest : XForest → List Char
  | .nil => []
  | .cons e es => serializeElem e ++ serializeForest es
end

/-- `str.index(sub)`: the first position where `sub` occurs, `none` for
Python's ValueError. -/
def indexOfSub (sub : List Char) : List Char → Option Nat
  | [] => if sub.isPrefixOf ([] : List Char) then some 0 else none
  | c :: t =>
    if sub.isPrefixOf (c :: t) then some 0
    else (indexOfSub sub t).map (· + 1)

/-- `str.rindex(sub)`: the last position where `sub` occurs. -/
def rindexOfSub (sub : List Char) (s : List Char) : Option Nat :=
  ((List.range (s.length + 1)).filter (fun i => sub.isPrefixOf (s.drop i))).getLast?

/-- Python `str.strip()` whitespace, evaluated on the development's
character repertoire (the ASCII whitespace characters). -/
def isPySpace (c : Char) : Bool :=
  c = ' ' || c = '\t' || c = '\n' || c = '\r' || c = '\x0b' || c = '\x0c'

/-- `str.strip()`. -/
def pyStrip (s : List Char) : List Char :=
  ((s.dropWhile isPySpace).reverse.dropWhile isPySpace).reverse

/-- `md.doc_tag` of Python-Markdown: the synthetic wrapper tag. -/
def docTag : String := "div"

/-- The `output` local of `run`: the rewritten tree re-serialized. -/
def runOutput (d : Dict) (root : XElem) : List Char :=
  serializeElem (recurseElement d (compilePattern (d.map Prod.fst)) root)

/-- `DefinedWordTreeprocessor.run`, from the point where the wrapped
document has been parsed by `etree.fromstring` (Document Framing, the
external collaborator of the spec) into `root`: an empty dictionary
returns early with no value (Python `return` without argument, i.e.
`None`); otherwise the tree is rewritten, re-serialized into `output`
(= `runOutput`), the slice between the wrapper tags extracted via
`index`/`rindex`, and stripped. -/
def runParsed (d : Dict) (root : XElem) : Except DWError (Option String) :=
  if d.length = 0 then .ok none
  else
    match indexOfSub ("<" ++ docTag ++ ">").data (runOutput d root) with
    | none => .error .valueError
    | some idx =>
      match rindexOfSub ("</" ++ docTag ++ ">").data (runOutput d root) with
      | none => .error .valueError
      | some ridx =>
        .ok (some (String.mk (pyStrip
          (sliceList (runOutput d root) (idx + docTag.length + 2) ridx))))

/-! ### Concrete data for the witnesses and counterexamples -/

/-- A small concrete dictionary for the witnesses: one English term. -/
def dSort : Dict :=
  [("sort", { link := some "/s.md", desc := some "d",
              redirect := none, resolved_link := some "https://e/s.html" })]

/-- A concrete dictionary whose sole key "cd" differs from the pattern
used alongside it, to exercise the out-of-sync guard. -/
def dCd : Dict :=
  [("cd", { link := none, desc := none, redirect := none, resolved_link := none })]

/-- A concrete dictionary with one term a proper prefix of another. -/
def dFutei : Dict :=
  [("不定", { link := none, desc := some "d1", redirect := none, resolved_link := some "L1" }),
   ("不定値", { link := none, desc := some "d2", redirect := none, resolved_link := some "L2" })]

/-- The redirect-resolution dictionary of the spec's example:
A redirects to B, B has a link and a description. -/
def dAB : Dict :=
  [("A", { link := none, desc := none, redirect := some "B", resolved_link := none }),
   ("B", { link := some "/x.md", desc := some "d", redirect := none, resolved_link := none })]

/-- `dAB` after the first resolution pass has inherited A's link. -/
def dAB1 : Dict :=
  [("A", { link := some "/x.md", desc := none, redirect := some "B", resolved_link := none }),
   ("B", { link := some "/x.md", desc := some "d", redirect := none, resolved_link := none })]

/-- `dAB` after the full first pass (A's link and description inherited). -/
def dAB2 : Dict :=
  [("A", { link := some "/x.md", desc := some "B。d", redirect := some "B", resolved_link := none }),
   ("B", { link := some "/x.md", desc := some "d", redirect := none, resolved_link := none })]

/-- `dAB2` after the second pass has normalized A's link. -/
def dA3 (burl ext : String) : Dict :=
  [("A", { link := some "/x.md", desc := some "B。d", redirect := some "B",
           resolved_link := some (burl ++ ("/x" ++ ext)) }),
   ("B", { link := some "/x.md", desc := some "d", redirect := none, resolved_link := none })]

/-- `dAB` fully resolved. -/
def dFinal (burl ext : String) : Dict :=
  [("A", { link := some "/x.md", desc := some "B。d", redirect := some "B",
           resolved_link := some (burl ++ ("/x" ++ ext)) }),
   ("B", { link := some "/x.md", desc := some "d", redirect := none,
           resolved_link := some (burl ++ ("/x" ++ ext)) })]

/-- The two-term redirect cycle of the spec's example. -/
def dLoop : Dict :=
  [("A", { link := none, desc := none, redirect := some "B", resolved_link := none }),
   ("B", { link := none, desc := none, redirect := some "A", resolved_link := none })]

/-- A dictionary whose term appears nowhere in the whitespace example. -/
def dZzz : Dict :=
  [("zzz", { link := some "/z.md", desc := none, redirect := none,
             resolved_link := some "https://e/z.html" })]

/-- A parsed document whose fragment carries leading and trailing
whitespace: `<div> <p>a</p> </div>`. -/
def rootWs : XElem :=
  .mk "div" [] (some " ") none (.cons (.mk "p" [] (some "a") (some " ") .nil) .nil)

/-- A parsed document with no surrounding whitespace: `<div><p>hi</p></div>`. -/
def rootDoc : XElem :=
  .mk "div" [] none none (.cons (.mk "p" [] (some "hi") none .nil) .nil)

/-! ### Order properties of the reverse lexicographic sort -/

theorem ltStr_irrefl (a : List Char) : ltStr a a = false := by
  induction a with
  | nil => rfl
  | cons x xs ih => simp [ltStr, ih]

theorem ltStr_asymm : ∀ a b : List Char, ltStr a b = true → ltStr b a = false
  | [], [], h => by simp [ltStr] at h
  | [], _ :: _, _ => by simp [ltStr]
  | _ :: _, [], h => by simp [ltStr] at h
  | x :: xs, y :: ys, h => by
    by_cases hxy : x.toNat < y.toNat
    · simp [ltStr, hxy, Nat.lt_asymm hxy]
    · by_cases hyx : y.toNat < x.toNat
      · simp [ltStr, hxy, hyx] at h
      · have h' : ltStr xs ys = true := by simpa [ltStr, hxy, hyx] using h
        simp [ltStr, hxy, hyx, ltStr_asymm xs ys h']

theorem ltStr_false_trans : ∀ a b c : List Char,
    ltStr a b = false → ltStr b c = false → ltStr a c = false
  | a, _, [], _, _ => by cases a <;> simp [ltStr]
  | _, [], _ :: _, _, h2 => by simp [ltStr] at h2
  | [], _ :: _, _ :: _, h1, _ => by simp [ltStr] at h1
  | x :: xs, y :: ys, z :: zs, h1, h2 => by
    have hyx : ¬ x.toNat < y.toNat := by
      intro h; simp [ltStr, h] at h1
    have hzy : ¬ y.toNat < z.toNat := by
      intro h; simp [ltStr, h] at h2
    have hxz : ¬ x.toNat < z.toNat := by omega
    by_cases hzx : z.toNat < x.toNat
    · simp [ltStr, hxz, hzx]
    · have hxy' : ¬ y.toNat < x.toNat := by omega
      have hyz' : ¬ z.toNat < y.toNat := by omega
      have e1 : ltStr xs ys = false := by simpa [ltStr, hyx, hxy'] using h1
      have e2 : ltStr ys zs = false := by simpa [ltStr, hzy, hyz'] using h2
      simp [ltStr, hxz, hzx, ltStr_false_trans xs ys zs e1 e2]

instance : IsTotal (List Char) strGe :=
  ⟨fun a b => by
    by_cases h : ltStr a b = true
    · exact Or.inr (ltStr_asymm a b h)
    · exact Or.inl (by simpa [strGe] using h)⟩

instance : IsTrans (List Char) strGe :=
  ⟨fun a b c hab hbc => ltStr_false_trans a b c hab hbc⟩

theorem ltStr_self_append (xs t : List Char) (ht : t ≠ []) :
    ltStr xs (xs ++ t) = true := by
  induction xs with
  | nil =>
    cases t with
    | nil => exact absurd rfl ht
    | cons c cs => simp [ltStr]
  | cons x xs ih => simp [ltStr, ih]

theorem ltStr_of_proper_prefix (a b : List Char) (hpre : a <+: b) (hne : a ≠ b) :
    ltStr a b = true := by
  obtain ⟨t, rfl⟩ := hpre
  have ht : t ≠ [] := by
    intro h; subst h; simp at hne
  simpa using ltStr_self_append a t ht

/-! ### Properties of the scanner and of `_convertText` -/

/-- The shape of a `finditer` result list seen from scan cursor `lo`:
matches come in increasing positions, do not overlap, and each matched
word is the exact substring of `text` at its position. -/
def MatchChain (text : List Char) : Nat → List (Nat × List Char) → Prop
  | _, [] => True
  | lo, (j, w) :: rest =>
    lo ≤ j ∧ (text.drop j).take w.length = w ∧ MatchChain text (j + w.length) rest

theorem matchChain_mono (text : List Char) (lo lo2 : Nat)
    (ms : List (Nat × List Char)) (h : MatchChain text lo2 ms) (hle : lo ≤ lo2) :
    MatchChain text lo ms := by
  cases ms with
  | nil => trivial
  | cons jw rest =>
    obtain ⟨j, w⟩ := jw
    obtain ⟨h1, h2, h3⟩ := h
    exact ⟨Nat.le_trans hle h1, h2, h3⟩

theorem matchTermAt_take (text : List Char) (i : Nat) (ct : CompiledTerm)
    (h : matchTermAt text i ct = true) :
    (text.drop i).take ct.word.length = ct.word := by
  unfold matchTermAt at h
  simp only [Bool.and_eq_true, beq_iff_eq] at h
  exact h.1.1

theorem findMatchFrom_facts (pat : List CompiledTerm) (text : List Char) :
    ∀ fuel i j w, findMatchFrom pat text fuel i = some (j, w) →
      i ≤ j ∧ j ≤ text.length ∧
        ∃ ct, pat.find? (fun c => matchTermAt text j c) = some ct ∧ ct.word = w := by
  intro fuel
  induction fuel with
  | zero => intro i j w h; cases h
  | succ fuel ih =>
    intro i j w h
    unfold findMatchFrom at h
    by_cases hlen : text.length < i
    · simp [hlen] at h
    · simp only [hlen, if_false] at h
      cases hf : pat.find? (fun c => matchTermAt text i c) with
      | some ct =>
        rw [hf] at h
        simp only [Option.some.injEq, Prod.mk.injEq] at h
        obtain ⟨rfl, rfl⟩ := h
        exact ⟨Nat.le_refl _, Nat.le_of_not_lt hlen, ct, hf, rfl⟩
      | none =>
        rw [hf] at h
        obtain ⟨h1, h2, h3⟩ := ih (i + 1) j w h
        exact ⟨Nat.le_trans (Nat.le_succ i) h1, h2, h3⟩

theorem scanFrom_chain (pat : List CompiledTerm) (text : List Char) :
    ∀ fuel i, MatchChain text i (scanFrom pat text fuel i) := by
  intro fuel
  induction fuel with
  | zero => intro i; trivial
  | succ fuel ih =>
    intro i
    unfold scanFrom
    cases hf : findMatchFrom pat text (text.length + 1 - i) i with
    | none => trivial
    | some jw =>
      obtain ⟨j, w⟩ := jw
      obtain ⟨hij, hjlen, ct, hfind, hword⟩ := findMatchFrom_facts pat text _ i j w hf
      have hmatch := List.find?_some hfind
      have htake := matchTermAt_take text j ct hmatch
      rw [hword] at htake
      refine ⟨hij, htake, ?_⟩
      exact matchChain_mono text _ _ _ (ih (j + max w.length 1))
        (Nat.add_le_add_left (Nat.le_max_left _ _) j)

theorem scanFrom_word_mem (pat : List CompiledTerm) (text : List Char) :
    ∀ fuel i j w, (j, w) ∈ scanFrom pat text fuel i →
      w ∈ pat.map CompiledTerm.word := by
  intro fuel
  induction fuel with
  | zero => intro i j w h; cases h
  | succ fuel ih =>
    intro i j w h
    unfold scanFrom at h
    cases hf : findMatchFrom pat text (text.length + 1 - i) i with
    | none => rw [hf] at h; cases h
    | some jw =>
      obtain ⟨j2, w2⟩ := jw
      rw [hf] at h
      cases h with
      | head =>
        obtain ⟨_, _, ct, hfind, hword⟩ := findMatchFrom_facts pat text _ i j w hf
        rw [← hword]
        exact List.mem_map_of_mem CompiledTerm.word (List.mem_of_find?_eq_some hfind)
      | tail _ h2 => exact ih _ j w h2

/-- A `finditer` match's word and the position to its right, cut out of
the suffix at its start position. -/
theorem drop_eq_word_append (text : List Char) (j : Nat) (w : List Char)
    (htake : (text.drop j).take w.length = w) :
    text.drop j = w ++ text.drop (j + w.length) := by
  conv_lhs => rw [← List.take_append_drop w.length (text.drop j)]
  rw [htake, List.drop_drop]

theorem drop_eq_slice_append (text : List Char) (pos j : Nat) (hle : pos ≤ j) :
    text.drop pos = sliceList text pos j ++ text.drop j := by
  unfold sliceList
  rw [List.drop_take]
  conv_lhs => rw [← List.take_append_drop (j - pos) (text.drop pos)]
  rw [List.drop_drop]
  congr 2
  omega

theorem convertTextLoop_fidelity (d : Dict) (text : List Char) :
    ∀ ms pos, MatchChain text pos ms →
      (convertTextLoop d text ms pos).1 ++
        ((convertTextLoop d text ms pos).2.map (fun a => a.word ++ a.tail)).flatten
        = text.drop pos := by
  intro ms
  induction ms with
  | nil => intro pos _; simp [convertTextLoop]
  | cons jw rest ih =>
    obtain ⟨j, w⟩ := jw
    intro pos hchain
    obtain ⟨hle, htake, hrest⟩ := hchain
    unfold convertTextLoop
    cases halo : alookup d (String.mk w) with
    | none =>
      exact ih pos (matchChain_mono text pos (j + w.length) rest hrest
        (Nat.le_trans hle (Nat.le_add_right j w.length)))
    | some e =>
      simp only [List.map_cons, List.flatten_cons]
      have hrec := ih (j + w.length) hrest
      rw [drop_eq_slice_append text pos j hle, drop_eq_word_append text j w htake]
      rw [← hrec]
      simp [List.append_assoc]

theorem convertTextLoop_keys (d : Dict) (text : List Char) :
    ∀ ms pos a, a ∈ (convertTextLoop d text ms pos).2 →
      (alookup d (String.mk a.word)).isSome := by
  intro ms
  induction ms with
  | nil => intro pos a h; simp [convertTextLoop] at h
  | cons jw rest ih =>
    obtain ⟨j, w⟩ := jw
    intro pos a h
    unfold convertTextLoop at h
    cases halo : alookup d (String.mk w) with
    | none => rw [halo] at h; exact ih pos a h
    | some e =>
      rw [halo] at h
      cases h with
      | head => simp [halo]
      | tail _ h2 => exact ih (j + w.length) a h2

theorem convertTextLoop_all_kept (d : Dict) (text : List Char) :
    ∀ ms pos, (∀ jw ∈ ms, (alookup d (String.mk (Prod.snd jw))).isSome) →
      (convertTextLoop d text ms pos).2.length = ms.length := by
  intro ms
  induction ms with
  | nil => intro pos _; simp [convertTextLoop]
  | cons jw rest ih =>
    obtain ⟨j, w⟩ := jw
    intro pos hall
    unfold convertTextLoop
    cases halo : alookup d (String.mk w) with
    | none =>
      have := hall (j, w) (List.mem_cons_self _ _)
      rw [halo] at this
      cases this
    | some e =>
      simp only [List.length_cons]
      rw [ih (j + w.length) (fun p hp => hall p (List.mem_cons_of_mem _ hp))]

theorem mem_keys_alookup_isSome (d : Dict) (k : String) (h : k ∈ d.map Prod.fst) :
    (alookup d k).isSome := by
  induction d with
  | nil => simp at h
  | cons p d ih =>
    by_cases hk : p.1 == k
    · unfold alookup
      rw [@List.find?_cons_of_pos _ (fun q => q.1 == k) p d hk]
      rfl
    · have h2 : k ∈ d.map Prod.fst := by
        simp only [List.map_cons, List.mem_cons] at h
        cases h with
        | inl heq => exact absurd (by simp [heq]) hk
        | inr h2 => exact h2
      unfold alookup
      rw [@List.find?_cons_of_neg _ (fun q => q.1 == k) p d hk]
      exact ih h2

theorem compilePattern_words (keys : List String) :
    (compilePattern keys).map CompiledTerm.word = sortDescLex (keys.map String.data) := by
  unfold compilePattern
  rw [List.map_map]
  exact List.map_id _

theorem compilePattern_words_perm (keys : List String) :
    ((compilePattern keys).map CompiledTerm.word).Perm (keys.map String.data) := by
  rw [compilePattern_words]
  exact List.perm_insertionSort strGe (keys.map String.data)

theorem find?_decomp {α : Type} (p : α → Bool) :
    ∀ (l : List α) (a : α), l.find? p = some a →
      ∃ l1 l2, l = l1 ++ a :: l2 ∧ p a = true ∧ ∀ x ∈ l1, p x = false := by
  intro l
  induction l with
  | nil => intro a h; cases h
  | cons x l ih =>
    intro a h
    by_cases hx : p x = true
    · rw [List.find?_cons_of_pos _ hx] at h
      obtain rfl : x = a := by injection h
      exact ⟨[], l, rfl, hx, by simp⟩
    · rw [List.find?_cons_of_neg _ hx] at h
      obtain ⟨l1, l2, hl, hpa, hfail⟩ := ih a h
      refine ⟨x :: l1, l2, by rw [hl, List.cons_append], hpa, ?_⟩
      intro y hy
      cases hy with
      | head => simpa using hx
      | tail _ hy2 => exact hfail y hy2

theorem scanFrom_hit (pat : List CompiledTerm) (text : List Char) :
    ∀ fuel i j w, (j, w) ∈ scanFrom pat text fuel i →
      ∃ ct, pat.find? (fun c => matchTermAt text j c) = some ct ∧ ct.word = w := by
  intro fuel
  induction fuel with
  | zero => intro i j w h; cases h
  | succ fuel ih =>
    intro i j w h
    unfold scanFrom at h
    cases hf : findMatchFrom pat text (text.length + 1 - i) i with
    | none => rw [hf] at h; cases h
    | some jw =>
      obtain ⟨j2, w2⟩ := jw
      rw [hf] at h
      cases h with
      | head =>
        obtain ⟨_, _, ct, hfind, hword⟩ := findMatchFrom_facts pat text _ i j w hf
        exact ⟨ct, hfind, hword⟩
      | tail _ h2 => exact ih _ j w h2

theorem compilePattern_mem_quote (keys : List String) (ct : CompiledTerm)
    (h : ct ∈ compilePattern keys) : ct = quoteWordForRegex ct.word := by
  obtain ⟨u, _, rfl⟩ := List.mem_map.mp h
  rfl

theorem compilePattern_sorted (keys : List String) :
    List.Pairwise (fun a b : CompiledTerm => strGe a.word b.word) (compilePattern keys) := by
  unfold compilePattern
  rw [List.pairwise_map]
  exact List.sorted_insertionSort strGe (keys.map String.data)

/-! ### The claims -/

/-- C1: For every document tree and non-empty resolved dictionary, each
converted text run is rewritten so that every (non-overlapping) pattern
match of a dictionary key becomes an annotation element whose text is
the exact matched substring, and the concatenation of the new leading
text, the annotation texts, and their trailing texts equals the original
string byte for byte; moreover no match is skipped (the annotation count
equals the match count). -/
theorem convertText_fidelity (d : Dict) (hne : d ≠ []) (text : List Char) :
    (convertText d (compilePattern (d.map Prod.fst)) text).1 ++
        ((convertText d (compilePattern (d.map Prod.fst)) text).2.map
          (fun a => a.word ++ a.tail)).flatten = text
    ∧ (∀ a ∈ (convertText d (compilePattern (d.map Prod.fst)) text).2,
        (alookup d (String.mk a.word)).isSome)
    ∧ (convertText d (compilePattern (d.map Prod.fst)) text).2.length
        = (scanText (compilePattern (d.map Prod.fst)) text).length := by
  refine ⟨?_, ?_, ?_⟩
  · have h := convertTextLoop_fidelity d text
      (scanText (compilePattern (d.map Prod.fst)) text) 0
      (scanFrom_chain (compilePattern (d.map Prod.fst)) text _ 0)
    simpa [convertText, List.drop_zero] using h
  · intro a ha
    exact convertTextLoop_keys d text _ 0 a ha
  · apply convertTextLoop_all_kept
    intro jw hjw
    have hw : jw.2 ∈ (compilePattern (d.map Prod.fst)).map CompiledTerm.word :=
      scanFrom_word_mem _ _ _ _ jw.1 jw.2 hjw
    have hmem : jw.2 ∈ (d.map Prod.fst).map String.data :=
      ((compilePattern_words_perm _).mem_iff).mp hw
    obtain ⟨k, hk, hkd⟩ := List.mem_map.mp hmem
    have hsk : String.mk jw.2 = k := by
      cases k with
      | mk l => rw [← hkd]
    rw [hsk]
    exact mem_keys_alookup_isSome d k hk

/-- Witness for C1: the theorem applied to the one-term dictionary
`dSort` and the text `"x sort y"`. -/
theorem convertText_fidelity_witness :
    (convertText dSort (compilePattern (dSort.map Prod.fst)) "x sort y".data).1 ++
        ((convertText dSort (compilePattern (dSort.map Prod.fst)) "x sort y".data).2.map
          (fun a => a.word ++ a.tail)).flatten = "x sort y".data :=
  (convertText_fidelity dSort (by decide) "x sort y".data).1

/-- C2: Whenever two compiled dictionary sub-patterns both match at the
same start position of a text, the word the scan yields there is at
least as long as any other matching term: the longer term wins.  (Two
terms matching at one position are both substrings at that position, so
one is a prefix of the other; the reverse-lexicographically sorted
alternation lists the extension first and the engine takes the first
matching alternative.) -/
theorem longest_match_at_position (keys : List String) (text : List Char)
    (j : Nat) (w : List Char)
    (hscan : (j, w) ∈ scanText (compilePattern keys) text)
    (k : String) (hk : k ∈ keys)
    (hmatch : matchTermAt text j (quoteWordForRegex k.data) = true) :
    k.data.length ≤ w.length := by
  obtain ⟨ct, hfind, hword⟩ := scanFrom_hit (compilePattern keys) text _ 0 j w hscan
  obtain ⟨l1, l2, hdecomp, _, hfail⟩ := find?_decomp _ _ _ hfind
  have hqmem : quoteWordForRegex k.data ∈ compilePattern keys := by
    unfold compilePattern
    apply List.mem_map_of_mem
    exact ((List.perm_insertionSort strGe _).mem_iff).mpr
      (List.mem_map_of_mem String.data hk)
  rw [hdecomp] at hqmem
  rcases List.mem_append.mp hqmem with h1 | h2
  · have := hfail _ h1
    rw [hmatch] at this
    cases this
  · rcases List.mem_cons.mp h2 with heq | h3
    · have hkw : k.data = w := by rw [← hword, ← heq]; rfl
      rw [hkw]
    · have hpair := compilePattern_sorted keys
      rw [hdecomp] at hpair
      have hge : strGe ct.word (quoteWordForRegex k.data).word :=
        (List.pairwise_cons.mp (List.pairwise_append.mp hpair).2.1).1 _ h3
      by_contra hlt
      have hwlt : w.length < k.data.length := Nat.lt_of_not_le hlt
      have htw : (text.drop j).take w.length = w := by
        have h := matchTermAt_take text j ct (List.find?_some hfind)
        rwa [hword] at h
      have htk : (text.drop j).take k.data.length = k.data :=
        matchTermAt_take text j _ hmatch
      have hpre : w <+: k.data := by
        have hkw : k.data.take w.length = w := by
          rw [← htk, List.take_take, min_eq_left (Nat.le_of_lt hwlt), htw]
        rw [← hkw]
        exact List.take_prefix _ _
      have hne2 : w ≠ k.data := by
        intro heq2
        rw [heq2] at hwlt
        exact Nat.lt_irrefl _ hwlt
      have hlt2 := ltStr_of_proper_prefix w k.data hpre hne2
      rw [hword] at hge
      exact absurd hge (by simp [strGe, quoteWordForRegex, hlt2])

/-- Witness for C2: with dictionary terms 不定 and 不定値, in a text
containing 不定値 both sub-patterns match at position 2; the scan yields
不定値 there, 不定's length is bounded by it, and the conversion
produces exactly one annotation, covering 不定値 with its entry. -/
theorem longest_match_at_position_witness :
    (2, "不定値".data) ∈ scanText (compilePattern ["不定", "不定値"]) "xx不定値y".data
    ∧ matchTermAt "xx不定値y".data 2 (quoteWordForRegex "不定".data) = true
    ∧ "不定".data.length ≤ "不定値".data.length
    ∧ ((convertText dFutei (compilePattern (dFutei.map Prod.fst)) "xx不定値y".data).2.map
        (fun a => (a.word, a.desc))) = [("不定値".data, some "d2")] := by
  refine ⟨by decide, by decide, ?_, by decide⟩
  exact longest_match_at_position ["不定", "不定値"] "xx不定値y".data 2 "不定値".data
    (by decide) "不定" (by decide) (by decide)

/-- C3 (amended): for every scanned match, if the matched word begins
with a character of the source's word class (`[\p{Ll}\p{Lu}_0-9]` —
cased letter, underscore or digit), the occurrence is preceded by
start-of-text or a character outside that class, and symmetrically at
the end.  The claim's own reading of "letter" (any letter, including
CJK) fails on the code, see the counterexample. -/
theorem word_boundary_compiled (keys : List String) (text : List Char)
    (j : Nat) (w : List Char)
    (hscan : (j, w) ∈ scanText (compilePattern keys) text) :
    (∀ c, w.head? = some c → isWordChar c = true →
        j = 0 ∨ (j - 1 < text.length ∧ isWordChar (text.getD (j - 1) ' ') = false))
    ∧ (∀ c, w.getLast? = some c → isWordChar c = true →
        text.length = j + w.length ∨
          (j + w.length < text.length ∧
            isWordChar (text.getD (j + w.length) ' ') = false)) := by
  obtain ⟨ct, hfind, hword⟩ := scanFrom_hit (compilePattern keys) text _ 0 j w hscan
  have hct := List.find?_some hfind
  have hq := compilePattern_mem_quote keys ct (List.mem_of_find?_eq_some hfind)
  rw [hword] at hq
  have htake := matchTermAt_take text j ct hct
  rw [hword] at htake
  have hlen : w.length ≤ text.length - j := by
    have h := congrArg List.length htake
    simp only [List.length_take, List.length_drop] at h
    omega
  unfold matchTermAt at hct
  rw [hq] at hct
  simp only [Bool.and_eq_true, Bool.or_eq_true, Bool.not_eq_true',
    beq_iff_eq, decide_eq_true_eq] at hct
  obtain ⟨⟨_, hbeg⟩, hend⟩ := hct
  constructor
  · intro c hc hcw
    have hwne : w ≠ [] := by intro h; rw [h] at hc; cases hc
    have hwpos : 0 < w.length := List.length_pos.mpr hwne
    have hwbeg : (quoteWordForRegex w).wbeg = true := by
      simp [quoteWordForRegex, hc, hcw]
    rcases hbeg with (h1 | h2) | h3
    · rw [hwbeg] at h1; cases h1
    · exact Or.inl h2
    · exact Or.inr ⟨by omega, h3⟩
  · intro c hc hcw
    have hwne : w ≠ [] := by intro h; rw [h] at hc; cases hc
    have hwpos : 0 < w.length := List.length_pos.mpr hwne
    have hwend : (quoteWordForRegex w).wend = true := by
      simp [quoteWordForRegex, hc, hcw]
    rcases hend with (h1 | h2) | h3
    · rw [hwend] at h1; cases h1
    · have hwq : (quoteWordForRegex w).word = w := rfl
      rw [hwq] at h2
      exact Or.inl (by omega)
    · have hwq : (quoteWordForRegex w).word = w := rfl
      rw [hwq] at h3
      by_cases hcase : text.length ≤ j + w.length
      · exact Or.inl (by omega)
      · exact Or.inr ⟨by omega, h3⟩

/-- Witness for C3 (amended): for the term "sort", the input "sorted"
yields no match, and in "x sort y" exactly "sort" is matched, its left
neighbour a non-word character. -/
theorem word_boundary_compiled_witness :
    scanText (compilePattern ["sort"]) "sorted".data = []
    ∧ scanText (compilePattern ["sort"]) "x sort y".data = [(2, "sort".data)]
    ∧ (2 = 0 ∨ (2 - 1 < "x sort y".data.length ∧
        isWordChar ("x sort y".data.getD (2 - 1) ' ') = false)) := by
  refine ⟨by decide, by decide, ?_⟩
  exact (word_boundary_compiled ["sort"] "x sort y".data 2 "sort".data (by decide)).1
    's' (by decide) (by decide)

/-- C3 counterexample: under the claim's own definition of word
character ("letter, underscore, or digit", which includes CJK letters),
the claim fails on the code: the term 不定 begins with a letter, yet its
compiled sub-pattern carries no boundary lookarounds (不 is outside the
source's Ll/Lu/_/0-9 class), so in the text 値不定 it matches at
position 1 even though the preceding character 値 is a letter (a word
character in the claim's sense). -/
theorem word_boundary_letter_cex :
    specWordChar '不' = true
    ∧ specWordChar '値' = true
    ∧ scanText (compilePattern ["不定"]) "値不定".data = [(1, "不定".data)]
    ∧ "値不定".data.getD (1 - 1) ' ' = '値'
    ∧ (1 : Nat) ≠ 0 := by decide

/-- C4: an element whose tag is in the exclusion set (a, code, pre, kbd,
dfn, h1 — case-insensitively) is skipped wholesale by `_recurseElement`:
tag, attributes, text, tail and the entire child subtree are returned
unchanged, so no annotation is ever inserted inside the subtree even
when its text equals a dictionary term. -/
theorem excluded_tag_skips_subtree (d : Dict) (pat : List CompiledTerm)
    (tag : String) (attrs : List (String × String)) (text tail : Option String)
    (children : XForest) (h : excludedTag tag = true) :
    recurseElement d pat (.mk tag attrs text tail children)
      = .mk tag attrs text tail children := by
  unfold recurseElement
  simp [h]

/-- Witness for C4: an anchor element whose text is exactly the
dictionary term 不定値 is returned untouched. -/
theorem excluded_tag_skips_subtree_witness :
    excludedTag "a" = true
    ∧ recurseElement dFutei (compilePattern (dFutei.map Prod.fst))
        (.mk "a" [] (some "不定値") none .nil)
      = .mk "a" [] (some "不定値") none .nil :=
  ⟨by decide,
   excluded_tag_skips_subtree dFutei (compilePattern (dFutei.map Prod.fst))
     "a" [] (some "不定値") none .nil (by decide)⟩

/-- C5 counterexample: a compiled-pattern match whose matched substring
is not a dictionary key does NOT fail fast: the `continue` silently
skips it.  Here the pattern matches "ab" at position 0, "ab" is not a
key of the dictionary, and the conversion completes normally, returning
the text unchanged with no annotation and no error. -/
theorem nonkey_match_skipped_cex :
    scanText (compilePattern ["ab"]) "ab".data = [(0, "ab".data)]
    ∧ alookup dCd "ab" = none
    ∧ convertText dCd (compilePattern ["ab"]) "ab".data = ("ab".data, []) := by
  decide

/-- C5 (amended): a compiled-pattern match whose matched substring is
not a dictionary key is silently skipped — it never becomes an
annotation, no error is raised (`_convertText` is total), and by C1's
fidelity its characters remain in the surrounding text.  The guard is
unreachable when the pattern is compiled from the dictionary itself. -/
theorem nonkey_match_never_annotated (d : Dict) (pat : List CompiledTerm)
    (text : List Char) (j : Nat) (w : List Char)
    (hscan : (j, w) ∈ scanText pat text)
    (hmiss : alookup d (String.mk w) = none) :
    ∀ a ∈ (convertText d pat text).2, a.word ≠ w := by
  intro a ha heq
  have h := convertTextLoop_keys d text _ 0 a ha
  rw [heq, hmiss] at h
  cases h

/-- Witness for C5 (amended), at the inputs of the counterexample: no
annotation produced there carries the non-key matched word. -/
theorem nonkey_match_never_annotated_witness :
    ((convertText dCd (compilePattern ["ab"]) "ab".data).2.all
      (fun a => !(a.word == "ab".data))) = true := by
  rw [List.all_eq_true]
  intro a ha
  have h := nonkey_match_never_annotated dCd (compilePattern ["ab"]) "ab".data 0 "ab".data
    (by decide) (by decide) a ha
  simpa using h

/-- C6 counterexample: the alternation is not ordered by descending key
length: for keys "ab" and "z" the compiled order is ["z", "ab"] —
the longer key comes after the shorter one. -/
theorem alternation_length_order_cex :
    (compilePattern ["ab", "z"]).map CompiledTerm.word = ["z".data, "ab".data]
    ∧ "z".data.length < "ab".data.length := by decide

/-- C6 (amended): the alternation lists one sub-pattern per key
(compiled words are a permutation of the keys) in descending
lexicographic (code point) order — not descending length order — which
still entails that whenever one key is a proper prefix of another, the
longer appears before the shorter. -/
theorem alternation_reverse_lex_order (keys : List String) :
    ((compilePattern keys).map CompiledTerm.word).Perm (keys.map String.data)
    ∧ List.Pairwise strGe ((compilePattern keys).map CompiledTerm.word)
    ∧ ∀ p q l1 l2 l3, p ≠ q → p <+: q →
        (compilePattern keys).map CompiledTerm.word ≠ l1 ++ p :: (l2 ++ q :: l3) := by
  refine ⟨compilePattern_words_perm keys, ?_, ?_⟩
  · rw [compilePattern_words]
    exact List.sorted_insertionSort strGe _
  · intro p q l1 l2 l3 hne hpre heq
    have hpair : List.Pairwise strGe (l1 ++ p :: (l2 ++ q :: l3)) := by
      rw [← heq, compilePattern_words]
      exact List.sorted_insertionSort strGe _
    have hge : strGe p q :=
      (List.pairwise_cons.mp (List.pairwise_append.mp hpair).2.1).1 q (by simp)
    exact absurd hge (by simp [strGe, ltStr_of_proper_prefix p q hpre hne])

/-- Witness for C6 (amended): with keys 不定 and 不定値 the compiled
order can not put the proper prefix 不定 first. -/
theorem alternation_reverse_lex_order_witness :
    (compilePattern ["不定", "不定値"]).map CompiledTerm.word
      ≠ ["不定".data, "不定値".data] :=
  (alternation_reverse_lex_order ["不定", "不定値"]).2.2 "不定".data "不定値".data [] [] []
    (by decide) ⟨"値".data, by decide⟩

/-! ### Dictionary resolution: helper equations -/

theorem exceptBind_ok {ε α β : Type} (a : α) (f : α → Except ε β) :
    ((Except.ok a : Except ε α) >>= f) = f a := rfl

theorem exceptPure_bind {ε α β : Type} (a : α) (f : α → Except ε β) :
    ((pure a : Except ε α) >>= f) = f a := rfl

theorem rwpLoop_found (d : Dict) (prop : Entry → Option String) (visited : List String)
    (word : String) (e : Entry) (next : String) (e2 : Entry) (v : String)
    (h1 : alookup d word = some e) (h2 : e.redirect = some next)
    (h3 : word ∉ visited) (h4 : alookup d next = some e2) (h5 : prop e2 = some v) :
    rwpLoop d prop visited word = .ok (some v, some next) := by
  rw [rwpLoop.eq_def]
  split
  · next heq => rw [h1] at heq; cases heq
  · next e' heq =>
    rw [h1] at heq
    injection heq with heq
    subst heq
    rw [h2]
    simp only [h3, not_false_iff, dif_neg]
    rw [h4]
    simp [h5]

theorem rwpLoop_step (d : Dict) (prop : Entry → Option String) (visited : List String)
    (word : String) (e : Entry) (next : String) (e2 : Entry)
    (h1 : alookup d word = some e) (h2 : e.redirect = some next)
    (h3 : word ∉ visited) (h4 : alookup d next = some e2) (h5 : prop e2 = none) :
    rwpLoop d prop visited word = rwpLoop d prop (word :: visited) next := by
  rw [rwpLoop.eq_def]
  split
  · next heq => rw [h1] at heq; cases heq
  · next e' heq =>
    rw [h1] at heq
    injection heq with heq
    subst heq
    rw [h2]
    simp only [h3, not_false_iff, dif_neg]
    rw [h4]
    simp [h5]

theorem rwpLoop_revisit (d : Dict) (prop : Entry → Option String) (visited : List String)
    (word : String) (e : Entry) (next : String)
    (h1 : alookup d word = some e) (h2 : e.redirect = some next)
    (h3 : word ∈ visited) :
    rwpLoop d prop visited word = .error (.redirectLoop word) := by
  rw [rwpLoop.eq_def]
  split
  · next heq => rw [h1] at heq; cases heq
  · next e' heq =>
    rw [h1] at heq
    injection heq with heq
    subst heq
    rw [h2]
    simp [h3]

theorem hlinkA : resolveWordProperty dAB Entry.link "A" = .ok (some "/x.md", some "B") :=
  rwpLoop_found dAB Entry.link [] "A"
    { link := none, desc := none, redirect := some "B", resolved_link := none } "B"
    { link := some "/x.md", desc := some "d", redirect := none, resolved_link := none }
    "/x.md" rfl rfl (by simp) rfl rfl

theorem hdescA : resolveWordProperty dAB1 Entry.desc "A" = .ok (some "d", some "B") :=
  rwpLoop_found dAB1 Entry.desc [] "A"
    { link := some "/x.md", desc := none, redirect := some "B", resolved_link := none } "B"
    { link := some "/x.md", desc := some "d", redirect := none, resolved_link := none }
    "d" rfl rfl (by simp) rfl rfl

theorem hp1A : pass1Step dAB "A" = .ok dAB2 := by
  unfold pass1Step
  simp only [show alookup dAB "A" = some
    { link := none, desc := none, redirect := some "B", resolved_link := none } from rfl,
    hlinkA, exceptBind_ok, exceptPure_bind,
    show updateEntry dAB "A" (fun e2 => { e2 with link := some "/x.md" }) = dAB1 from rfl,
    hdescA]
  rfl

theorem hp1B : pass1Step dAB2 "B" = .ok dAB2 := rfl

theorem hfold1 : foldSteps pass1Step dAB ["A", "B"] = .ok dAB2 := by
  show (pass1Step dAB "A" >>= fun d1 => foldSteps pass1Step d1 ["B"]) = .ok dAB2
  rw [hp1A, exceptBind_ok]
  show (pass1Step dAB2 "B" >>= fun d1 => foldSteps pass1Step d1 []) = .ok dAB2
  rw [hp1B, exceptBind_ok]
  rfl

theorem rewriteLinkExtension_xmd (ext : String) :
    rewriteLinkExtension ext "/x.md" = "/x" ++ ext := by
  cases ext with
  | mk e =>
    show String.mk ('/' :: 'x' :: (e ++ [])) = String.mk ("/x".data ++ e)
    simp

theorem resolveLink_xmd (burl ext : String) :
    resolveLink burl ext "/x.md" = .ok (burl ++ ("/x" ++ ext)) := by
  unfold resolveLink
  rw [show hasLinkScheme "/x.md".data = false from rfl]
  simp only [Bool.false_eq_true, if_false]
  rw [rewriteLinkExtension_xmd ext]
  have hhead : ("/x" ++ ext).data.head? = some '/' := by
    cases ext with
    | mk e => simp [String.append]
  simp [hhead]

theorem hp2A (burl ext : String) : pass2Step burl ext dAB2 "A" = .ok (dA3 burl ext) := by
  unfold pass2Step
  simp only [show alookup dAB2 "A" = some
    { link := some "/x.md", desc := some "B。d", redirect := some "B", resolved_link := none }
    from rfl, resolveLink_xmd, exceptBind_ok]
  rfl

theorem hp2B (burl ext : String) :
    pass2Step burl ext (dA3 burl ext) "B" = .ok (dFinal burl ext) := by
  unfold pass2Step
  simp only [show alookup (dA3 burl ext) "B" = some
    { link := some "/x.md", desc := some "d", redirect := none, resolved_link := none }
    from rfl, resolveLink_xmd, exceptBind_ok]
  rfl

theorem hfold2 (burl ext : String) :
    foldSteps (pass2Step burl ext) dAB2 ["A", "B"] = .ok (dFinal burl ext) := by
  show (pass2Step burl ext dAB2 "A" >>= fun d1 => foldSteps (pass2Step burl ext) d1 ["B"])
      = .ok (dFinal burl ext)
  rw [hp2A, exceptBind_ok]
  show (pass2Step burl ext (dA3 burl ext) "B" >>= fun d1 => foldSteps (pass2Step burl ext) d1 [])
      = .ok (dFinal burl ext)
  rw [hp2B, exceptBind_ok]
  rfl

/-- C7: resolving the dictionary A redirects-to B, B maps to "/x.md" with
description "d": resolution succeeds, A's resolved link becomes the
configured base URL prefixed to "/x" with the configured output suffix
replacing ".md", and A's description becomes "B。d" (the redirect target
where the description was found, the separator 。, then the inherited
description). -/
theorem redirect_resolution_example (burl ext : String) :
    resolveDictionary burl ext dAB = .ok (dFinal burl ext)
    ∧ alookup (dFinal burl ext) "A" = some
        { link := some "/x.md", desc := some "B。d", redirect := some "B",
          resolved_link := some (burl ++ ("/x" ++ ext)) } := by
  constructor
  · show (foldSteps pass1Step dAB ["A", "B"] >>= fun d1 =>
        foldSteps (pass2Step burl ext) d1 ["A", "B"]) = .ok (dFinal burl ext)
    rw [hfold1, exceptBind_ok, hfold2]
  · rfl

/-! ### The redirect-cycle error -/

theorem rwpLoop_cycle_aux (d : Dict) (prop : Entry → Option String) (ws : Nat → String)
    (n : Nat)
    (hstep : ∀ k, k < n →
      ∃ e, alookup d (ws k) = some e ∧ prop e = none ∧ e.redirect = some (ws (k + 1)))
    (hrev : ∃ i, i < n ∧ ws i = ws n) :
    ∀ m s visited, n = s + m →
      (∀ v ∈ visited, ∃ k, k < s ∧ ws k = v) →
      (∀ k, k < s → ws k ∈ visited) →
      ∃ t k1 k2, k1 < k2 ∧ k2 ≤ n ∧ ws k1 = t ∧ ws k2 = t ∧
        rwpLoop d prop visited (ws s) = .error (.redirectLoop t) := by
  intro m
  induction m with
  | zero =>
    intro s visited hsm hinv1 hinv2
    obtain ⟨i, hin, hieq⟩ := hrev
    have hsn : s = n := by omega
    subst hsn
    obtain ⟨e, he, hp, hr⟩ := hstep i hin
    have hlook : alookup d (ws s) = some e := by rw [← hieq]; exact he
    have hmem : ws s ∈ visited := by
      rw [← hieq]
      exact hinv2 i hin
    exact ⟨ws s, i, s, hin, Nat.le_refl s, hieq, rfl,
      rwpLoop_revisit d prop visited (ws s) e (ws (i + 1)) hlook hr hmem⟩
  | succ m ih =>
    intro s visited hsm hinv1 hinv2
    have hsn : s < n := by omega
    obtain ⟨e, he, hp, hr⟩ := hstep s hsn
    by_cases hmem : ws s ∈ visited
    · obtain ⟨k1, hk1, hk1eq⟩ := hinv1 (ws s) hmem
      exact ⟨ws s, k1, s, hk1, Nat.le_of_lt hsn, hk1eq, rfl,
        rwpLoop_revisit d prop visited (ws s) e (ws (s + 1)) he hr hmem⟩
    · have hnext : ∃ e2, alookup d (ws (s + 1)) = some e2 ∧ prop e2 = none := by
        by_cases hcase : s + 1 < n
        · obtain ⟨e2, h1, h2, _⟩ := hstep (s + 1) hcase
          exact ⟨e2, h1, h2⟩
        · have hseq : s + 1 = n := by omega
          obtain ⟨i, hin, hieq⟩ := hrev
          obtain ⟨e2, h1, h2, _⟩ := hstep i hin
          refine ⟨e2, ?_, h2⟩
          rw [hseq, ← hieq]
          exact h1
      obtain ⟨e2, hlook2, hp2⟩ := hnext
      have hstepeq := rwpLoop_step d prop visited (ws s) e (ws (s + 1)) e2 he hr hmem hlook2 hp2
      obtain ⟨t, k1, k2, hlt, hle, heq1, heq2, herr⟩ :=
        ih (s + 1) (ws s :: visited) (by omega)
          (by
            intro v hv
            cases hv with
            | head => exact ⟨s, Nat.lt_succ_self s, rfl⟩
            | tail _ hv2 =>
              obtain ⟨k, hk, hkeq⟩ := hinv1 v hv2
              exact ⟨k, Nat.lt_succ_of_lt hk, hkeq⟩)
          (by
            intro k hk
            rcases Nat.lt_succ_iff_lt_or_eq.mp hk with hk2 | hk2
            · exact List.mem_cons_of_mem _ (hinv2 k hk2)
            · rw [hk2]; exact List.mem_cons_self _ _)
      exact ⟨t, k1, k2, hlt, hle, heq1, heq2, by rw [hstepeq]; exact herr⟩

/-- C8: whenever following redirect pointers from a term walks through
entries that never carry the sought property and revisits a term of the
walk (`ws i = ws j`), property resolution raises the redirection-loop
error, naming a term that occurs twice on the walk — a term of the
cycle — never silently truncating the chain. -/
theorem redirect_loop_detected (d : Dict) (prop : Entry → Option String)
    (ws : Nat → String) (i j : Nat) (hij : i < j) (heq : ws i = ws j)
    (hstep : ∀ k, k < j →
      ∃ e, alookup d (ws k) = some e ∧ prop e = none ∧ e.redirect = some (ws (k + 1))) :
    ∃ t k1 k2, k1 < k2 ∧ k2 ≤ j ∧ ws k1 = t ∧ ws k2 = t ∧
      resolveWordProperty d prop (ws 0) = .error (.redirectLoop t) := by
  obtain ⟨e0, he0, hp0, _⟩ := hstep 0 (Nat.lt_of_le_of_lt (Nat.zero_le i) hij)
  have hrw : resolveWordProperty d prop (ws 0) = rwpLoop d prop [] (ws 0) := by
    unfold resolveWordProperty
    simp only [he0, hp0]
  obtain ⟨t, k1, k2, hlt, hle, heq1, heq2, herr⟩ :=
    rwpLoop_cycle_aux d prop ws j hstep ⟨i, hij, heq⟩ j 0 [] (by omega)
      (by intro v hv; cases hv) (by intro k hk; omega)
  exact ⟨t, k1, k2, hlt, hle, heq1, heq2, by rw [hrw]; exact herr⟩

/-- Witness for C8: the dictionary A redirects-to B, B redirects-to A
raises the redirection-loop error, naming a term of the cycle. -/
theorem redirect_loop_detected_witness :
    ∃ t, (t = "A" ∨ t = "B") ∧
      resolveWordProperty dLoop Entry.link "A" = .error (.redirectLoop t) := by
  obtain ⟨t, k1, k2, hlt, hle, heq1, heq2, herr⟩ :=
    redirect_loop_detected dLoop Entry.link (fun k => if k % 2 = 0 then "A" else "B") 0 2
      (by omega) rfl
      (by
        intro k hk
        interval_cases k
        · exact ⟨_, rfl, rfl, rfl⟩
        · exact ⟨_, rfl, rfl, rfl⟩)
  refine ⟨t, ?_, herr⟩
  have hk1 : k1 < 2 := Nat.lt_of_lt_of_le hlt hle
  interval_cases k1
  · exact Or.inl heq1.symm
  · exact Or.inr heq1.symm

/-! ### The run surface -/

theorem dropWhile_dropWhile (p : Char → Bool) (l : List Char) :
    (l.dropWhile p).dropWhile p = l.dropWhile p := by
  induction l with
  | nil => rfl
  | cons x l ih =>
    by_cases hx : p x = true
    · rw [List.dropWhile_cons, if_pos hx, ih]
    · rw [List.dropWhile_cons, if_neg hx, List.dropWhile_cons, if_neg hx]

theorem dropWhile_eq_self_of_prefix (p : Char → Bool) (l1 l2 : List Char)
    (hpre : l1 <+: l2) (h : l2.dropWhile p = l2) : l1.dropWhile p = l1 := by
  cases l1 with
  | nil => rfl
  | cons x t =>
    obtain ⟨r, hr⟩ := hpre
    rw [← hr, List.cons_append, List.dropWhile_cons] at h
    by_cases hx : p x = true
    · rw [if_pos hx] at h
      have hlen := congrArg List.length h
      have hsub := List.Sublist.length_le (@List.dropWhile_sublist Char (t ++ r) p)
      rw [List.length_append] at hsub
      simp at hlen
      omega
    · rw [List.dropWhile_cons, if_neg hx]

theorem pyStrip_idem (s : List Char) : pyStrip (pyStrip s) = pyStrip s := by
  unfold pyStrip
  have hA : (s.dropWhile isPySpace).dropWhile isPySpace = s.dropWhile isPySpace :=
    dropWhile_dropWhile isPySpace s
  have hpre : (((s.dropWhile isPySpace).reverse.dropWhile isPySpace).reverse)
      <+: s.dropWhile isPySpace := by
    have h2 := List.reverse_prefix.mpr
      (List.dropWhile_suffix (l := (s.dropWhile isPySpace).reverse) isPySpace)
    rwa [List.reverse_reverse] at h2
  have h1 := dropWhile_eq_self_of_prefix isPySpace _ _ hpre hA
  rw [h1, List.reverse_reverse, dropWhile_dropWhile]

/-- C9 (what the code does at the claim's failing input): with an empty
configured dictionary, a successful `run` invocation returns no value
(Python `None`), not the unchanged document text; with a non-empty
dictionary the same document comes back as a string.  The claim — and
the Postprocessor contract — expect a string in both cases. -/
theorem run_empty_dict_returns_none :
    runParsed ([] : Dict) rootDoc = .ok none
    ∧ runParsed dZzz rootDoc = .ok (some "<p>hi</p>") :=
  ⟨rfl, rfl⟩

/-- C10: for a non-empty dictionary, whatever string a successful run
returns has already had its leading and trailing whitespace stripped:
the returned text is a fixed point of Python's `strip()`. -/
theorem run_output_stripped (d : Dict) (root : XElem) (s : String)
    (hne : d ≠ []) (hrun : runParsed d root = .ok (some s)) :
    s.data = pyStrip s.data := by
  unfold runParsed at hrun
  have hlen : ¬ d.length = 0 := by
    cases d with
    | nil => exact absurd rfl hne
    | cons p d => simp
  rw [if_neg hlen] at hrun
  split at hrun
  · cases hrun
  · split at hrun
    · cases hrun
    · injection hrun with hrun
      injection hrun with hrun
      rw [← hrun]
      exact (pyStrip_idem _).symm

/-- Witness for C10: the fragment ` <p>a</p> ` (leading and trailing
whitespace, no dictionary term present, nothing else rewritten) comes
back as `<p>a</p>`: the whitespace at the very start and end of the
input fragment is absent from the output. -/
theorem run_output_stripped_witness :
    runParsed dZzz rootWs = .ok (some "<p>a</p>")
    ∧ "<p>a</p>".data = pyStrip "<p>a</p>".data
    ∧ (" <p>a</p> " : String) ≠ "<p>a</p>" := by
  have h : runParsed dZzz rootWs = .ok (some "<p>a</p>") := rfl
  exact ⟨h, run_output_stripped dZzz rootWs "<p>a</p>" (by decide) h, by decide⟩

end DefinedWords
